import Mathlib

/-!
# Verification of the Movie-Recommender core (src/movie_recommender.py)

Shallow embedding of the recommendation engine of `src/movie_recommender.py`:

* `RecommendationWorker.run` (lines 27-66): query resolution (exact
  case-insensitive title match, then the pandas `str.contains` fuzzy stage),
  ranking by descending cosine-similarity score with Python's stable sort,
  exclusion of the resolved movie itself, truncation to 20 results.
* `MovieRecommenderGUI.load_and_process_data` (lines 89-132): feature
  normalisation and concatenation, the `CountVectorizer` term-count matrix,
  and the cosine-similarity computation, with the two `except` branches.

Modelling conventions:

* Python strings are embedded as `List Char` (`PyStr`); `str.lower` becomes
  `List.map Char.toLower` (ASCII case folding, which covers every string used
  in the development).
* pandas `Series.str.contains(pat)` compiles `pat` as a regular expression
  (`re.search` semantics).  `compilePat`/`rsearch` embed the fragment of
  Python's regex language consisting of literal characters, the wildcard `.`
  (not matching a newline, as in `re`) and the postfix repetition `*`; a
  repetition with nothing to repeat is a compile failure (Python raises
  `re.error`, caught by the worker's blanket `except`).  On this fragment the
  embedding agrees with `re` exactly; queries containing any of the twelve
  remaining metacharacters are outside the model, so `regexFragment` scopes
  every general statement about the fuzzy stage to the fragment, and every
  concrete input appearing in the theorems below stays inside it.
* float scores are embedded as `ℚ` for the worker (every IEEE-754 double is a
  rational, and the worker only copies and compares scores); the exact-real
  value of the cosine formula itself is embedded over `ℝ` (`cosineSim`).
* Python's `sorted` (a stable sort) is embedded as the stable descending
  insertion sort `isortDesc`: an element is placed before exactly those
  elements of strictly smaller key, so equal-key elements keep their input
  order, which is the defining property of `sorted(..., reverse=True)`.
-/

namespace MovieRec

/-- Embedding of a Python `str` as its list of characters. -/
abbrev PyStr := List Char

/-- `str.lower()` (ASCII case folding, as used by every title in scope). -/
def strLower (s : PyStr) : PyStr := s.map Char.toLower

/-- Index of the first element of `l` satisfying `p`: embeds
`df[mask].index[0]` for a boolean mask `mask` over a default `RangeIndex`
(pandas row labels coincide with positions). `none` embeds `movie_matches.empty`. -/
def firstIdx (p : PyStr → Bool) : List PyStr → Option ℕ
  | [] => none
  | t :: ts => if p t then some 0 else (firstIdx p ts).map (· + 1)

/-- Literal substring test (`needle` occurs contiguously in `hay`); used only
to state the specification's reading of the fuzzy stage, for comparison with
the source's regex reading. -/
def leadMatch : PyStr → PyStr → Bool
  | [], _ => true
  | _ :: _, [] => false
  | a :: as, b :: bs => a == b && leadMatch as bs

/-- `needle` is a contiguous substring of `hay` (the spec's wording for the
fuzzy stage: "query text as a substring of the title"). -/
def containsSub (nd : PyStr) (hay : PyStr) : Bool :=
  leadMatch nd hay ||
    (match hay with
     | [] => false
     | _ :: t => containsSub nd t)

/-! ## The regex fragment behind `Series.str.contains` -/

/-- A regex atom of the embedded fragment: a literal character or `.`. -/
inductive RTok where
  | lit (c : Char)
  | dot
deriving DecidableEq

/-- A compiled pattern element: an atom, possibly under a `*` repetition. -/
structure RElem where
  tok : RTok
  star : Bool
deriving DecidableEq

def tokMatch : RTok → Char → Bool
  | .lit c, d => c == d
  | .dot, d => !(d == '\n')

/-- Pattern compilation (the embedded fragment of `re.compile`):
`.` is the wildcard, `*` repeats the preceding atom, everything else is a
literal.  A `*` with no preceding atom, or applied to an already-starred
atom, is a compile failure (`re.error: nothing to repeat` / `multiple repeat`).
The embedding agrees with `re.compile` exactly on patterns whose characters
all satisfy `regexFragment`; patterns outside that fragment are not
modelled, and no theorem asserts anything about them. -/
def compileAux (acc : List RElem) (last : Option RElem) : List Char → Option (List RElem)
  | [] => some (acc ++ last.toList)
  | c :: cs =>
    if c = '*' then
      match last with
      | none => none
      | some e => if e.star then none else compileAux acc (some ⟨e.tok, true⟩) cs
    else
      compileAux (acc ++ last.toList) (some ⟨if c = '.' then RTok.dot else RTok.lit c, false⟩) cs

def compilePat (s : List Char) : Option (List RElem) := compileAux [] none s

/-- The characters on which `compilePat`/`rsearch` agree exactly with
Python's `re`: the modelled metacharacters `.` and `*`, and every character
that `re` treats as a literal.  The twelve unmodelled metacharacters are
excluded; statements about the fuzzy stage quantifying over all queries are
scoped to queries whose characters all satisfy this predicate. -/
def regexFragment (c : Char) : Bool :=
  !(c == '^' || c == '$' || c == '+' || c == '?' || c == '{' || c == '}' ||
    c == '[' || c == ']' || c == '\\' || c == '|' || c == '(' || c == ')')

/-- Kleene-star closure: consume zero or more characters matching `t`, then
succeed if the continuation `k` (the rest of the pattern) matches what is
left.  The disjunction tries every number of repetitions, which covers all
of `re`'s backtracking. -/
def starLoop (t : RTok) (k : PyStr → Bool) : PyStr → Bool
  | [] => k []
  | c :: cs => k (c :: cs) || (tokMatch t c && starLoop t k cs)

/-- Does some prefix of `s` match the whole pattern? -/
def rmatchPfx : List RElem → PyStr → Bool
  | [], _ => true
  | e :: es, s =>
    if e.star then starLoop e.tok (fun r => rmatchPfx es r) s
    else
      match s with
      | [] => false
      | c :: cs => tokMatch e.tok c && rmatchPfx es cs

/-- `re.search` of the fragment: the pattern matches at some position of
`s`.  Exact for patterns compiled from `regexFragment` queries (boolean
match existence is unaffected by `re`'s greedy backtracking order). -/
def rsearch (pat : List RElem) (s : PyStr) : Bool :=
  rmatchPfx pat s ||
    (match s with
     | [] => false
     | _ :: t => rsearch pat t)

/-! ## `RecommendationWorker.run`, lines 31-43: query resolution -/

/-- Outcome of query resolution (lines 31-43 of the source): the first matched
row index, "no match" (line 38's `movie_matches.empty`), or a raised
`re.error` from the fuzzy stage's pattern compilation (caught by the
worker's `except`). -/
inductive Resolved where
  | found (i : ℕ)
  | notFound
  | compileError
deriving DecidableEq

/-- Lines 31-43 of `RecommendationWorker.run`:
`movie_matches = df[df['title'].str.lower() == movie_title.lower()]`, and if
empty, `df[df['title'].str.lower().str.contains(movie_title.lower(), na=False)]`
— the pandas fuzzy stage compiles the lowered query as a regular expression
and tests it with `re.search` against each lowered title.  The resolved index
is `movie_matches.index[0]`. -/
def resolveIndex (q : PyStr) (titles : List PyStr) : Resolved :=
  match firstIdx (fun t => strLower t == strLower q) titles with
  | some i => .found i
  | none =>
    match compilePat (strLower q) with
    | none => .compileError
    | some pat =>
      match firstIdx (fun t => rsearch pat (strLower t)) titles with
      | some i => .found i
      | none => .notFound

/-! ## `RecommendationWorker.run`, lines 46-61: ranking and selection -/

/-- Stable descending insertion: `x` is placed before exactly the elements of
strictly smaller score, so among equal scores earlier elements stay first. -/
def insertDesc (x : ℕ × ℚ) : List (ℕ × ℚ) → List (ℕ × ℚ)
  | [] => [x]
  | y :: ys => if y.2 ≤ x.2 then x :: y :: ys else y :: insertDesc x ys

/-- `sorted(similar_movies, key=lambda x: x[1], reverse=True)` (line 49):
Python's stable descending sort by score.  Any two stable sorts with the same
key order produce identical output, so this insertion sort is an exact
embedding of `sorted`. -/
def isortDesc : List (ℕ × ℚ) → List (ℕ × ℚ)
  | [] => []
  | x :: xs => insertDesc x (isortDesc xs)

/-- The index/score part of the selection loop of lines 52-61: walk the sorted
candidates, skip the entry whose index is `movieIndex`, keep at most 20
(`count` is the number already kept; after appending, `count >= 20` breaks). -/
def selectLoop (movieIndex : ℕ) : List (ℕ × ℚ) → ℕ → List (ℕ × ℚ)
  | [], _ => []
  | m :: rest, count =>
    if m.1 ≠ movieIndex then
      if count + 1 ≥ 20 then [m]
      else m :: selectLoop movieIndex rest (count + 1)
    else selectLoop movieIndex rest count

/-- The selection loop of lines 52-61 with the title lookup of line 56
(`self.df.iloc[movie[0]]['title']`) performed inside the loop; an
out-of-range `iloc` raises `IndexError` (caught by the worker's `except`),
embedded as `Except.error`. -/
def buildRecs (titles : List PyStr) (movieIndex : ℕ) :
    List (ℕ × ℚ) → ℕ → Except Unit (List (PyStr × ℚ))
  | [], _ => .ok []
  | m :: rest, count =>
    if m.1 ≠ movieIndex then
      match titles.get? m.1 with
      | none => .error ()
      | some t =>
        if count + 1 ≥ 20 then .ok [(t, m.2)]
        else
          match buildRecs titles movieIndex rest (count + 1) with
          | .ok l => .ok ((t, m.2) :: l)
          | .error e => .error e
    else buildRecs titles movieIndex rest count

/-- Observable outcome of `RecommendationWorker.run`: a successful
`finished.emit(recommendations, None)`, the distinguished not-found message
`error.emit(f"Movie '{q}' not found in the database.")` (which carries the
query), or the blanket handler `error.emit(f"An error occurred: {e}")` of
line 66. -/
inductive RunResult where
  | finished (recs : List (PyStr × ℚ))
  | notFound (q : PyStr)
  | failure (msg : String)
deriving DecidableEq

/-- `RecommendationWorker.run` (lines 27-66).  `titles` is the `title` column
of `self.df`; `sim` is `self.cosine_sim` as a row-major matrix of scores.
`similar_movies = list(enumerate(self.cosine_sim[movie_index]))` is
`row.enum`; an out-of-range matrix index would raise inside the `try` and be
reported through the blanket handler. -/
def runWorker (q : PyStr) (titles : List PyStr) (sim : List (List ℚ)) : RunResult :=
  match resolveIndex q titles with
  | .compileError => .failure "An error occurred: invalid fuzzy-match pattern"
  | .notFound => .notFound q
  | .found i =>
    match sim.get? i with
    | none => .failure "An error occurred: similarity row index out of range"
    | some row =>
      match buildRecs titles i (isortDesc row.enum) 0 with
      | .error _ => .failure "An error occurred: positional title lookup out of range"
      | .ok recs => .finished recs

/-- The engine state read by the worker: the loaded dataframe's `title`
column, the vocabulary and term-count matrix built at load time, and the
similarity matrix.  `RecommendationWorker.run` only ever reads `self.df` and
`self.cosine_sim` (its assignments are all to thread-locals), so the
state-passing embedding returns the state unchanged. -/
structure EngineState where
  titles : List PyStr
  vocab : List PyStr
  counts : List (List ℕ)
  sim : List (List ℚ)
deriving DecidableEq

/-- State-passing form of `RecommendationWorker.run`: the body of lines 27-66
contains no store to `self.df` or `self.cosine_sim` (only the thread-locals
`movie_matches`, `movie_index`, `similar_movies`, `sorted_similar_movies`,
`recommendations`, `count` are assigned), so the post-state is the pre-state. -/
def runWorkerSt (q : PyStr) (st : EngineState) : EngineState × RunResult :=
  (st, runWorker q st.titles st.sim)

/-! ## `MovieRecommenderGUI.load_and_process_data`, lines 89-132 -/

/-- A parsed row of `movie_dataset.csv`: the `title` column plus the four
feature columns of line 99.  A feature may be missing (pandas `NaN`),
embedded as `none`; line 103's `fillna('')` turns it into the empty string. -/
structure MovieRow where
  title : PyStr
  keywords : Option PyStr
  cast : Option PyStr
  genres : Option PyStr
  director : Option PyStr
deriving DecidableEq

/-- `combine_features` (lines 105-114) after the `fillna('')` of line 103:
the four features joined by single spaces, missing values as empty text. -/
def combineFeatures (r : MovieRow) : PyStr :=
  r.keywords.getD [] ++ [' '] ++ r.cast.getD [] ++ [' '] ++
    r.genres.getD [] ++ [' '] ++ r.director.getD []

/-- `CountVectorizer`'s word characters (the `\w` of its default token
pattern, restricted to ASCII as everywhere in this development). -/
def isWordChar (c : Char) : Bool := c.isAlphanum || c = '_'

/-- Split a character list into its maximal runs of word characters;
`cur` is the current run, accumulated in reverse. -/
def splitTokensAux (cur : List Char) : List Char → List (List Char)
  | [] => if cur = [] then [] else [cur.reverse]
  | c :: cs =>
    if isWordChar c then splitTokensAux (c :: cur) cs
    else if cur = [] then splitTokensAux [] cs
    else cur.reverse :: splitTokensAux [] cs

/-- `CountVectorizer`'s tokenizer: lower-case the document, take the maximal
word-character runs, and keep only tokens of at least two characters (the
default token pattern `(?u)\b\w\w+\b`). -/
def tokenize (doc : PyStr) : List PyStr :=
  (splitTokensAux [] (strLower doc)).filter (fun t => 2 ≤ t.length)

/-- The vocabulary fitted by `CountVectorizer.fit_transform`: the distinct
tokens of all documents.  (sklearn additionally sorts the vocabulary
alphabetically; that permutes the matrix columns, which nothing observable
in this development depends on, so first-occurrence order is kept.) -/
def buildVocab (docs : List PyStr) : List PyStr := (docs.map tokenize).flatten.dedup

/-- `cv.fit_transform(self.df['combined_features'])` (lines 119-120): the
vocabulary and the term-count matrix, one row per document, one column per
vocabulary token, entry = occurrence count.  When the fitted vocabulary is
empty — no documents, or no document contains a valid token — sklearn raises
`ValueError("empty vocabulary; perhaps the documents only contain stop
words")`. -/
def fitTransform (docs : List PyStr) : Except String (List PyStr × List (List ℕ)) :=
  let vocab := buildVocab docs
  if vocab = [] then
    .error "empty vocabulary; perhaps the documents only contain stop words"
  else
    .ok (vocab, docs.map (fun d => vocab.map (fun t => (tokenize d).count t)))

/-- Observable outcome of `load_and_process_data` (lines 89-132): success
with the processed data, or one of the two fatal `except` branches — the
`FileNotFoundError` message box (lines 125-128) or the blanket
`f"Error loading data: {e}"` box (lines 129-132), each followed by
`sys.exit(1)`. -/
inductive LoadResult where
  | ok (titles : List PyStr) (vocab : List PyStr) (counts : List (List ℕ))
  | exitMissingFile
  | exitLoadError (msg : String)
deriving DecidableEq

/-- `load_and_process_data` up to the count matrix (Steps 1-4, lines 94-120).
`csv = none` embeds an unreadable `movie_dataset.csv` (the
`FileNotFoundError` of `pd.read_csv`); otherwise `csv` is the parsed row
list.  Any exception inside the `try` lands in the blanket handler: in
particular the vectorizer's empty-vocabulary `ValueError`, the only failure
an empty corpus can produce, is reported as a generic load error — there is
no error kind distinguishing an empty corpus.  (Step 5, the similarity
matrix of line 123, is `simMatrix` below; it raises nothing.) -/
def load_and_process_data (csv : Option (List MovieRow)) : LoadResult :=
  match csv with
  | none => .exitMissingFile
  | some rows =>
    match fitTransform (rows.map combineFeatures) with
    | .error m => .exitLoadError ("Error loading data: " ++ m)
    | .ok (vocab, counts) => .ok (rows.map (·.title)) vocab counts

/-! ## Cosine similarity (line 123) -/

/-- Dot product of two count rows (`ℕ`-valued matrix rows). -/
def dotList (u v : List ℕ) : ℕ := (List.zipWith (· * ·) u v).sum

/-- The normalisation factor sklearn's `cosine_similarity` divides a row by:
its Euclidean norm, with zero norms replaced by `1` (sklearn's
`normalize(X)` substitutes 1 for zero norms precisely so that zero rows stay
zero instead of faulting). -/
noncomputable def rowNorm (u : List ℕ) : ℝ := if dotList u u = 0 then 1 else Real.sqrt (dotList u u)

/-- `cosine_similarity` on a pair of term-count rows (line 123): the dot
product divided by the product of the (zero-guarded) Euclidean norms. -/
noncomputable def cosineSim (u v : List ℕ) : ℝ := (dotList u v : ℝ) / (rowNorm u * rowNorm v)

/-- `self.cosine_sim = cosine_similarity(count_matrix)` (line 123): the
all-pairs similarity matrix of the count matrix's rows. -/
noncomputable def simMatrix (m : List (List ℕ)) : List (List ℝ) :=
  m.map (fun r => m.map (fun s => cosineSim r s))

/-- The specification's literal-substring reading of query resolution
(§4.2 steps 1-2 of the spec): exact lowered-title match first, else the
lowered query as a literal substring of a lowered title, first match in
corpus order; `none` is the spec's `NotFound`.  Stated only to compare with
the source's `resolveIndex`. -/
def resolveSpecSubstring (q : PyStr) (titles : List PyStr) : Option ℕ :=
  match firstIdx (fun t => strLower t == strLower q) titles with
  | some i => some i
  | none => firstIdx (fun t => containsSub (strLower q) (strLower t)) titles

/-! ## Lemmas about `firstIdx` -/

theorem firstIdx_some_iff (p : PyStr → Bool) (l : List PyStr) (i : ℕ) :
    firstIdx p l = some i ↔
      i < l.length ∧ p (l.getD i []) = true ∧ ∀ j, j < i → p (l.getD j []) = false := by
  induction l generalizing i with
  | nil => simp [firstIdx]
  | cons t ts ih =>
    by_cases hpt : p t
    · simp only [firstIdx, hpt, if_pos]
      constructor
      · rintro h
        cases h
        refine ⟨by simp, by simpa using hpt, fun j hj => by omega⟩
      · rintro ⟨hlen, hp, hall⟩
        cases i with
        | zero => rfl
        | succ k =>
          have := hall 0 (Nat.succ_pos k)
          simp only [List.getD_cons_zero] at this
          rw [hpt] at this
          cases this
    · simp only [firstIdx, hpt, if_neg, Bool.false_eq_true, not_false_iff]
      constructor
      · intro h
        rcases Option.map_eq_some'.mp h with ⟨k, hk, rfl⟩
        rcases (ih k).mp hk with ⟨hlen, hp, hall⟩
        refine ⟨by simpa using hlen, by simpa using hp, ?_⟩
        intro j hj
        cases j with
        | zero => simpa using hpt
        | succ m =>
          simp only [List.getD_cons_succ]
          exact hall m (by omega)
      · rintro ⟨hlen, hp, hall⟩
        cases i with
        | zero =>
          simp only [List.getD_cons_zero] at hp
          exact absurd hp hpt
        | succ k =>
          have hk : firstIdx p ts = some k := by
            refine (ih k).mpr ⟨by simpa using hlen, by simpa using hp, ?_⟩
            intro j hj
            have := hall (j + 1) (by omega)
            simpa using this
          simp [hk]

theorem firstIdx_none_iff (p : PyStr → Bool) (l : List PyStr) :
    firstIdx p l = none ↔ ∀ t ∈ l, p t = false := by
  induction l with
  | nil => simp [firstIdx]
  | cons t ts ih =>
    by_cases hpt : p t
    · simp [firstIdx, hpt]
    · simp only [firstIdx, hpt, if_neg, Bool.false_eq_true, not_false_iff,
        Option.map_eq_none', List.mem_cons]
      constructor
      · intro h x hx
        rcases hx with rfl | hx
        · simpa using hpt
        · exact ih.mp h x hx
      · intro h
        exact ih.mpr (fun x hx => h x (Or.inr hx))

theorem firstIdx_lt_length {p : PyStr → Bool} {l : List PyStr} {i : ℕ}
    (h : firstIdx p l = some i) : i < l.length :=
  ((firstIdx_some_iff p l i).mp h).1

/-! ## Lemmas about the stable descending sort -/

/-- The strict key order realised by Python's stable descending sort on
`enumerate`d rows: strictly larger score first, equal scores in ascending
row-index order. -/
def sortRel (a b : ℕ × ℚ) : Prop := b.2 < a.2 ∨ (a.2 = b.2 ∧ a.1 < b.1)

theorem insertDesc_perm (x : ℕ × ℚ) (l : List (ℕ × ℚ)) :
    (insertDesc x l).Perm (x :: l) := by
  induction l with
  | nil => simp [insertDesc]
  | cons y ys ih =>
    simp only [insertDesc]
    by_cases h : y.2 ≤ x.2
    · simp [h]
    · rw [if_neg h]
      exact (ih.cons y).trans (List.Perm.swap x y ys)

theorem isortDesc_perm (l : List (ℕ × ℚ)) : (isortDesc l).Perm l := by
  induction l with
  | nil => simp [isortDesc]
  | cons x xs ih =>
    exact (insertDesc_perm x (isortDesc xs)).trans (ih.cons x)

theorem mem_isortDesc {a : ℕ × ℚ} {l : List (ℕ × ℚ)} : a ∈ isortDesc l ↔ a ∈ l :=
  (isortDesc_perm l).mem_iff

theorem insertDesc_pairwise {x : ℕ × ℚ} {l : List (ℕ × ℚ)}
    (hl : l.Pairwise sortRel) (hx : ∀ y ∈ l, x.2 = y.2 → x.1 < y.1) :
    (insertDesc x l).Pairwise sortRel := by
  induction l with
  | nil => simp [insertDesc]
  | cons y ys ih =>
    rcases List.pairwise_cons.mp hl with ⟨hy, hys⟩
    simp only [insertDesc]
    by_cases h : y.2 ≤ x.2
    · rw [if_pos h]
      refine List.pairwise_cons.mpr ⟨?_, hl⟩
      intro z hz
      rcases List.mem_cons.mp hz with rfl | hz
      · rcases lt_or_eq_of_le h with hlt | heq
        · exact Or.inl hlt
        · exact Or.inr ⟨heq.symm, hx z (by simp) heq.symm⟩
      · rcases hy z hz with hlt | ⟨heq, _⟩
        · exact Or.inl (lt_of_lt_of_le hlt h)
        · rcases lt_or_eq_of_le h with hlt2 | heq2
          · exact Or.inl (heq ▸ hlt2)
          · exact Or.inr ⟨heq2.symm.trans heq, hx z (by simp [hz]) (heq2.symm.trans heq)⟩
    · rw [if_neg h]
      refine List.pairwise_cons.mpr ⟨?_, ih hys (fun z hz he => hx z (by simp [hz]) he)⟩
      intro z hz
      have hz' : z = x ∨ z ∈ ys := by
        have := (insertDesc_perm x ys).mem_iff.mp hz
        simpa using this
      rcases hz' with rfl | hz'
      · exact Or.inl (lt_of_not_le h)
      · exact hy z hz'

theorem isortDesc_pairwise {l : List (ℕ × ℚ)}
    (h : l.Pairwise (fun a b => a.1 < b.1)) : (isortDesc l).Pairwise sortRel := by
  induction l with
  | nil => simp [isortDesc]
  | cons x xs ih =>
    rcases List.pairwise_cons.mp h with ⟨hx, hxs⟩
    refine insertDesc_pairwise (ih hxs) ?_
    intro y hy _
    exact hx y (mem_isortDesc.mp hy)

theorem enumFrom_pairwise_fst (l : List ℚ) (n : ℕ) :
    (l.enumFrom n).Pairwise (fun a b : ℕ × ℚ => a.1 < b.1) := by
  induction l generalizing n with
  | nil => simp
  | cons x xs ih =>
    refine List.pairwise_cons.mpr ⟨?_, ih (n + 1)⟩
    intro z hz
    rcases List.mk_mem_enumFrom_iff_le_and_getElem?_sub.mp (by exact hz) with ⟨hle, _⟩
    omega

theorem enum_pairwise_fst (l : List ℚ) :
    l.enum.Pairwise (fun a b : ℕ × ℚ => a.1 < b.1) := enumFrom_pairwise_fst l 0

theorem sortRel_snd {a b : ℕ × ℚ} (h : sortRel a b) : b.2 ≤ a.2 := by
  rcases h with h | ⟨h, _⟩
  · exact le_of_lt h
  · exact le_of_eq h.symm

/-! ## Lemmas about the selection loop -/

theorem selectLoop_sublist (mi : ℕ) (l : List (ℕ × ℚ)) (c : ℕ) :
    (selectLoop mi l c).Sublist l := by
  induction l generalizing c with
  | nil => simp [selectLoop]
  | cons m rest ih =>
    simp only [selectLoop]
    by_cases h : m.1 ≠ mi
    · rw [if_pos h]
      by_cases hc : c + 1 ≥ 20
      · rw [if_pos hc]
        exact (List.nil_sublist rest).cons₂ m
      · rw [if_neg hc]
        exact (ih (c + 1)).cons₂ m
    · rw [if_neg h]
      exact (ih c).cons m

theorem selectLoop_fst_ne (mi : ℕ) (l : List (ℕ × ℚ)) (c : ℕ) :
    ∀ m ∈ selectLoop mi l c, m.1 ≠ mi := by
  induction l generalizing c with
  | nil => simp [selectLoop]
  | cons m rest ih =>
    simp only [selectLoop]
    by_cases h : m.1 ≠ mi
    · rw [if_pos h]
      by_cases hc : c + 1 ≥ 20
      · rw [if_pos hc]
        intro z hz
        rcases List.mem_singleton.mp hz with rfl
        exact h
      · rw [if_neg hc]
        intro z hz
        rcases List.mem_cons.mp hz with rfl | hz
        · exact h
        · exact ih (c + 1) z hz
    · rw [if_neg h]
      exact ih c

theorem selectLoop_length (mi : ℕ) (l : List (ℕ × ℚ)) (c : ℕ) (hc : c < 20) :
    (selectLoop mi l c).length =
      min (20 - c) (l.countP (fun m => decide (m.1 ≠ mi))) := by
  induction l generalizing c with
  | nil => simp [selectLoop]
  | cons m rest ih =>
    simp only [selectLoop]
    by_cases h : m.1 ≠ mi
    · rw [if_pos h]
      rw [List.countP_cons_of_pos _ _ (by simpa using h)]
      by_cases hcc : c + 1 ≥ 20
      · rw [if_pos hcc]
        have hc19 : c = 19 := by omega
        subst hc19
        simp only [List.length_singleton]
        omega
      · rw [if_neg hcc]
        simp only [List.length_cons, ih (c + 1) (by omega)]
        omega
    · rw [if_neg h]
      rw [List.countP_cons_of_neg _ _ (by simpa using h)]
      exact ih c hc

/-! ## Lemmas about the selection loop with title lookup -/

theorem buildRecs_eq_map {titles : List PyStr} {mi : ℕ} :
    ∀ {l : List (ℕ × ℚ)} {c : ℕ} {recs : List (PyStr × ℚ)},
      buildRecs titles mi l c = .ok recs →
      recs = (selectLoop mi l c).map (fun m => (titles.getD m.1 [], m.2))
  | [], c, recs => by
    intro h
    simp only [buildRecs, Except.ok.injEq] at h
    simp [selectLoop, ← h]
  | m :: rest, c, recs => by
    intro h
    simp only [buildRecs, selectLoop] at h ⊢
    by_cases hm : m.1 ≠ mi
    · rw [if_pos hm] at h ⊢
      cases hget : titles.get? m.1 with
      | none => rw [hget] at h; cases h
      | some t =>
        rw [hget] at h
        dsimp only at h
        have htD : titles[m.1]? = some t := by
          rw [← List.get?_eq_getElem?]
          exact hget
        by_cases hc : c + 1 ≥ 20
        · rw [if_pos hc] at h ⊢
          simp only [Except.ok.injEq] at h
          simp [← h, htD]
        · rw [if_neg hc] at h ⊢
          cases hrec : buildRecs titles mi rest (c + 1) with
          | error e => rw [hrec] at h; cases h
          | ok l2 =>
            rw [hrec] at h
            simp only [Except.ok.injEq] at h
            simp [← h, htD, buildRecs_eq_map hrec]
    · rw [if_neg hm] at h ⊢
      exact buildRecs_eq_map h

theorem buildRecs_sources {titles : List PyStr} {mi : ℕ} :
    ∀ {l : List (ℕ × ℚ)} {c : ℕ} {recs : List (PyStr × ℚ)},
      buildRecs titles mi l c = .ok recs →
      ∀ p ∈ recs, ∃ m, m ∈ l ∧ m.1 ≠ mi ∧ titles.get? m.1 = some p.1 ∧ m.2 = p.2
  | [], c, recs => by
    intro h p hp
    simp only [buildRecs, Except.ok.injEq] at h
    rw [← h] at hp
    cases hp
  | m :: rest, c, recs => by
    intro h p hp
    simp only [buildRecs] at h
    by_cases hm : m.1 ≠ mi
    · rw [if_pos hm] at h
      cases hget : titles.get? m.1 with
      | none => rw [hget] at h; cases h
      | some t =>
        rw [hget] at h
        dsimp only at h
        by_cases hc : c + 1 ≥ 20
        · rw [if_pos hc] at h
          simp only [Except.ok.injEq] at h
          rw [← h] at hp
          rcases List.mem_singleton.mp hp with rfl
          exact ⟨m, by simp, hm, by simpa using hget, rfl⟩
        · rw [if_neg hc] at h
          cases hrec : buildRecs titles mi rest (c + 1) with
          | error e => rw [hrec] at h; cases h
          | ok l2 =>
            rw [hrec] at h
            simp only [Except.ok.injEq] at h
            rw [← h] at hp
            rcases List.mem_cons.mp hp with rfl | hp
            · exact ⟨m, by simp, hm, by simpa using hget, rfl⟩
            · rcases buildRecs_sources hrec p hp with ⟨m2, hm2, hne, hg, hs⟩
              exact ⟨m2, by simp [hm2], hne, hg, hs⟩
    · rw [if_neg hm] at h
      rcases buildRecs_sources h p hp with ⟨m2, hm2, hne, hg, hs⟩
      exact ⟨m2, by simp [hm2], hne, hg, hs⟩

theorem buildRecs_snd_sublist {titles : List PyStr} {mi : ℕ} :
    ∀ {l : List (ℕ × ℚ)} {c : ℕ} {recs : List (PyStr × ℚ)},
      buildRecs titles mi l c = .ok recs →
      (recs.map Prod.snd).Sublist (l.map Prod.snd)
  | [], c, recs => by
    intro h
    simp only [buildRecs, Except.ok.injEq] at h
    simp [← h]
  | m :: rest, c, recs => by
    intro h
    simp only [buildRecs] at h
    by_cases hm : m.1 ≠ mi
    · rw [if_pos hm] at h
      cases hget : titles.get? m.1 with
      | none => rw [hget] at h; cases h
      | some t =>
        rw [hget] at h
        dsimp only at h
        by_cases hc : c + 1 ≥ 20
        · rw [if_pos hc] at h
          simp only [Except.ok.injEq] at h
          rw [← h]
          simp only [List.map_cons, List.map_singleton]
          exact (List.nil_sublist _).cons₂ m.2
        · rw [if_neg hc] at h
          cases hrec : buildRecs titles mi rest (c + 1) with
          | error e => rw [hrec] at h; cases h
          | ok l2 =>
            rw [hrec] at h
            simp only [Except.ok.injEq] at h
            rw [← h]
            simp only [List.map_cons]
            exact (buildRecs_snd_sublist hrec).cons₂ m.2
    · rw [if_neg hm] at h
      simp only [List.map_cons]
      exact (buildRecs_snd_sublist h).cons m.2

theorem buildRecs_ok {titles : List PyStr} {mi : ℕ} :
    ∀ (l : List (ℕ × ℚ)) (c : ℕ), (∀ m ∈ l, m.1 < titles.length) →
      ∃ recs, buildRecs titles mi l c = .ok recs
  | [], c => fun _ => ⟨[], rfl⟩
  | m :: rest, c => by
    intro hlt
    have hm1 : m.1 < titles.length := hlt m (by simp)
    rcases List.get?_eq_some.mpr ⟨hm1, rfl⟩ with hget
    simp only [buildRecs]
    by_cases hm : m.1 ≠ mi
    · rw [if_pos hm, hget]
      dsimp only
      by_cases hc : c + 1 ≥ 20
      · rw [if_pos hc]
        exact ⟨_, rfl⟩
      · rw [if_neg hc]
        rcases buildRecs_ok rest (c + 1) (fun z hz => hlt z (by simp [hz])) with ⟨recs, hrecs⟩
        rw [hrecs]
        exact ⟨_, rfl⟩
    · rw [if_neg hm]
      exact buildRecs_ok rest c (fun z hz => hlt z (by simp [hz]))

/-! ## Inversion of a successful `run` and counting lemmas -/

theorem runWorker_finished_inv {q : PyStr} {titles : List PyStr} {sim : List (List ℚ)}
    {recs : List (PyStr × ℚ)} (h : runWorker q titles sim = .finished recs) :
    ∃ i row, resolveIndex q titles = .found i ∧ sim.get? i = some row ∧
      buildRecs titles i (isortDesc row.enum) 0 = .ok recs := by
  unfold runWorker at h
  cases hres : resolveIndex q titles with
  | compileError => rw [hres] at h; cases h
  | notFound => rw [hres] at h; cases h
  | found i =>
    rw [hres] at h
    dsimp only at h
    cases hrow : sim.get? i with
    | none => rw [hrow] at h; cases h
    | some row =>
      rw [hrow] at h
      dsimp only at h
      cases hb : buildRecs titles i (isortDesc row.enum) 0 with
      | error e => rw [hb] at h; cases h
      | ok recs2 =>
        rw [hb] at h
        simp only [RunResult.finished.injEq] at h
        exact ⟨i, row, rfl, hrow, by rw [hb, h]⟩

theorem mem_enumFrom_fst_lt {x : ℕ × ℚ} :
    ∀ {l : List ℚ} {n : ℕ}, x ∈ l.enumFrom n → x.1 < n + l.length := by
  intro l
  induction l with
  | nil => intro n h; cases h
  | cons a as ih =>
    intro n h
    rcases List.mem_cons.mp h with rfl | h
    · simp only [List.length_cons]
      omega
    · have := ih h
      simp only [List.length_cons]
      omega

theorem mem_enum_fst_lt {x : ℕ × ℚ} {l : List ℚ} (h : x ∈ l.enum) : x.1 < l.length := by
  have := mem_enumFrom_fst_lt (l := l) (n := 0) h
  omega

theorem countP_ne_range' :
    ∀ (n s mi : ℕ), (List.range' s n).countP (fun k => decide (k ≠ mi)) =
      n - (if s ≤ mi ∧ mi < s + n then 1 else 0)
  | 0, s, mi => by
    simp only [List.range'_zero, List.countP_nil]
    have : ¬(s ≤ mi ∧ mi < s + 0) := by omega
    rw [if_neg this]
  | n + 1, s, mi => by
    rw [List.range'_succ, List.countP_cons]
    rw [countP_ne_range' n (s + 1) mi]
    by_cases hs : s = mi
    · subst hs
      have hd : decide (s ≠ s) = false := by simp
      rw [hd]
      simp only [Bool.false_eq_true, if_false]
      split_ifs <;> omega
    · have hd : decide (s ≠ mi) = true := by simp [hs]
      rw [hd]
      simp only [if_pos rfl]
      split_ifs <;> omega

theorem countP_ne_enum {row : List ℚ} {mi : ℕ} (hmi : mi < row.length) :
    row.enum.countP (fun m => decide (m.1 ≠ mi)) = row.length - 1 := by
  have hmap : row.enum.countP (fun m => decide (m.1 ≠ mi)) =
      (row.enum.map Prod.fst).countP (fun k => decide (k ≠ mi)) := by
    rw [List.countP_map]
    rfl
  rw [hmap, List.enum_eq_enumFrom, List.enumFrom_map_fst, countP_ne_range']
  have : 0 ≤ mi ∧ mi < 0 + row.length := by omega
  rw [if_pos this]

theorem resolveIndex_found_lt {q : PyStr} {titles : List PyStr} {i : ℕ}
    (h : resolveIndex q titles = .found i) : i < titles.length := by
  unfold resolveIndex at h
  cases h1 : firstIdx (fun t => strLower t == strLower q) titles with
  | some j =>
    rw [h1] at h
    dsimp only at h
    injection h with h2
    subst h2
    exact firstIdx_lt_length h1
  | none =>
    rw [h1] at h
    dsimp only at h
    cases h2 : compilePat (strLower q) with
    | none => rw [h2] at h; cases h
    | some pat =>
      rw [h2] at h
      dsimp only at h
      cases h3 : firstIdx (fun t => rsearch pat (strLower t)) titles with
      | none => rw [h3] at h; cases h
      | some j =>
        rw [h3] at h
        dsimp only at h
        injection h with h4
        subst h4
        exact firstIdx_lt_length h3

/-! ## The claims -/

/-- C2.  For every resolvable query, the returned `(title, score)` sequence
has non-increasing scores, and the underlying selected candidates (the
`(corpus index, score)` pairs of the loop of lines 52-61, fed by the stable
sort of line 49) are strictly ordered by descending score with equal scores
in ascending corpus-row order — the output order is deterministic. -/
theorem ranking_sorted_desc_stable (q : PyStr) (titles : List PyStr) (sim : List (List ℚ))
    (recs : List (PyStr × ℚ)) (h : runWorker q titles sim = .finished recs) :
    recs.Pairwise (fun a b => b.2 ≤ a.2) ∧
    ∀ i row, resolveIndex q titles = .found i → sim.get? i = some row →
      (selectLoop i (isortDesc row.enum) 0).Pairwise sortRel := by
  constructor
  · rcases runWorker_finished_inv h with ⟨i, row, hres, hrow, hb⟩
    have hsorted : (isortDesc row.enum).Pairwise sortRel :=
      isortDesc_pairwise (enum_pairwise_fst row)
    have hsnd : ((isortDesc row.enum).map Prod.snd).Pairwise (fun a b : ℚ => b ≤ a) :=
      (List.pairwise_map).mpr (hsorted.imp sortRel_snd)
    have hrecs : (recs.map Prod.snd).Pairwise (fun a b : ℚ => b ≤ a) :=
      List.Pairwise.sublist (buildRecs_snd_sublist hb) hsnd
    exact (List.pairwise_map).mp hrecs
  · intro i row _ _
    exact List.Pairwise.sublist (selectLoop_sublist i (isortDesc row.enum) 0)
      (isortDesc_pairwise (enum_pairwise_fst row))

/-- Witness for C2 at a concrete corpus: a three-item corpus with a
resolvable query; both conjuncts are instantiated. -/
theorem ranking_sorted_desc_stable_witness :
    ([(['x','v'], (1 : ℚ)), (['a','b'], 0)] :
        List (PyStr × ℚ)).Pairwise (fun a b => b.2 ≤ a.2) := by
  have h := ranking_sorted_desc_stable ['a','v'] [['a','b'],['a','v'],['x','v']]
    [[1,0,0],[0,1,1],[0,1,1]] [(['x','v'], 1), (['a','b'], 0)] (by decide)
  exact h.1

/-- C3.  When item `i` is the first item whose lower-cased title equals its
own lower-cased title (in particular always when titles are distinct),
invoking the worker with `i`'s exact title resolves to `i`, and every
returned pair originates from a corpus index different from `i`: the
resolved query item's own index is strictly excluded from the results. -/
theorem self_excluded_from_results (titles : List PyStr) (sim : List (List ℚ)) (i : ℕ)
    (hi : i < titles.length)
    (hfirst : ∀ j, j < i → strLower (titles.getD j []) ≠ strLower (titles.getD i [])) :
    resolveIndex (titles.getD i []) titles = .found i ∧
    ∀ recs, runWorker (titles.getD i []) titles sim = .finished recs →
      ∀ p ∈ recs, ∃ k row, k ≠ i ∧ titles.get? k = some p.1 ∧
        sim.get? i = some row ∧ (k, p.2) ∈ row.enum := by
  have hres : resolveIndex (titles.getD i []) titles = .found i := by
    have hfi : firstIdx (fun t => strLower t == strLower (titles.getD i [])) titles = some i := by
      refine (firstIdx_some_iff _ _ _).mpr ⟨hi, by simp, ?_⟩
      intro j hj
      exact beq_eq_false_iff_ne.mpr (hfirst j hj)
    unfold resolveIndex
    rw [hfi]
  refine ⟨hres, ?_⟩
  intro recs hrun p hp
  rcases runWorker_finished_inv hrun with ⟨i2, row, hres2, hrow, hb⟩
  rw [hres] at hres2
  injection hres2 with h2
  subst h2
  rcases buildRecs_sources hb p hp with ⟨m, hm, hne, hg, hs⟩
  refine ⟨m.1, row, hne, hg, hrow, ?_⟩
  have : m ∈ row.enum := mem_isortDesc.mp hm
  rw [← hs]
  exact this

/-- Witness for C3: a concrete two-item corpus; the query resolves to its
own row. -/
theorem self_excluded_from_results_witness :
    resolveIndex ((([['a','a'], ['b','b']] : List PyStr)).getD 0 []) [['a','a'], ['b','b']] =
      .found 0 :=
  (self_excluded_from_results [['a','a'], ['b','b']] [[1,0],[0,1]] 0 (by decide)
    (fun j hj => by omega)).1

/-- C4.  On a well-formed square similarity matrix, every resolvable query
returns successfully (no error) with exactly `min 20 (n - 1)` results for an
`n`-item corpus, and the result is empty exactly when the corpus has a
single item. -/
theorem result_length_min_k (q : PyStr) (titles : List PyStr) (sim : List (List ℚ)) (i : ℕ)
    (hres : resolveIndex q titles = .found i)
    (hsq : sim.length = titles.length)
    (hrows : ∀ r ∈ sim, r.length = titles.length) :
    ∃ recs, runWorker q titles sim = .finished recs ∧
      recs.length = min 20 (titles.length - 1) ∧
      (recs.length = 0 ↔ titles.length = 1) := by
  have hi : i < titles.length := resolveIndex_found_lt hres
  have hisim : i < sim.length := by omega
  obtain ⟨row, hrow⟩ : ∃ row, sim.get? i = some row := by
    rcases List.get?_eq_get hisim with h
    exact ⟨_, h⟩
  have hrowlen : row.length = titles.length := hrows row (List.get?_mem hrow)
  have hmem : ∀ m ∈ isortDesc row.enum, m.1 < titles.length := by
    intro m hm
    have := mem_enum_fst_lt (mem_isortDesc.mp hm)
    omega
  obtain ⟨recs, hb⟩ := buildRecs_ok (isortDesc row.enum) 0 hmem
  have hrun : runWorker q titles sim = .finished recs := by
    unfold runWorker
    rw [hres]
    dsimp only
    rw [hrow]
    dsimp only
    rw [hb]
  have hlen : recs.length = min 20 (titles.length - 1) := by
    have hmap := buildRecs_eq_map hb
    have hsel := selectLoop_length i (isortDesc row.enum) 0 (by omega)
    have hcnt : (isortDesc row.enum).countP (fun m => decide (m.1 ≠ i)) =
        row.enum.countP (fun m => decide (m.1 ≠ i)) :=
      (isortDesc_perm row.enum).countP_eq _
    have henum : row.enum.countP (fun m => decide (m.1 ≠ i)) = row.length - 1 :=
      countP_ne_enum (by omega)
    rw [hmap, List.length_map, hsel, hcnt, henum, hrowlen]
  refine ⟨recs, hrun, hlen, ?_⟩
  rw [hlen]
  omega

/-- Witness for C4: the single-item corpus; the result is the empty
sequence, without error. -/
theorem result_length_min_k_witness :
    ∃ recs, runWorker ['a','a'] [['a','a']] [[1]] = .finished recs ∧
      recs.length = min 20 ((([['a','a']] : List PyStr)).length - 1) ∧
      (recs.length = 0 ↔ (([['a','a']] : List PyStr)).length = 1) :=
  result_length_min_k ['a','a'] [['a','a']] [[1]] 0 (by decide) (by decide) (by decide)

theorem rsearch_nil (s : PyStr) : rsearch [] s = true := by
  unfold rsearch
  rw [show rmatchPfx [] s = true from rfl]
  exact Bool.true_or _

/-- C1 (amended).  Query resolution is two-stage with first match winning:
the first corpus index whose lower-cased title equals the lower-cased query;
failing that, the lower-cased query is compiled as a regular expression and
the first index whose lower-cased title it matches (`re.search`) is taken;
if the pattern matches no title the call fails with the not-found error, and
if the pattern does not compile the call fails with the generic error
instead.  (The fuzzy stage is a regex match, not the literal substring match
the claim states — see the counterexample.)  The fuzzy-stage clauses are
scoped by `regexFragment` to the queries on which the embedded regex engine
agrees exactly with `re`; the exact-match clause holds for every query. -/
theorem query_resolution_two_stage (q : PyStr) (titles : List PyStr) :
    (∀ i, i < titles.length → strLower (titles.getD i []) = strLower q →
      (∀ j, j < i → strLower (titles.getD j []) ≠ strLower q) →
      resolveIndex q titles = .found i) ∧
    ((strLower q).all regexFragment = true →
      (∀ t ∈ titles, strLower t ≠ strLower q) →
      ∀ pat, compilePat (strLower q) = some pat →
        (∀ i, i < titles.length → rsearch pat (strLower (titles.getD i [])) = true →
          (∀ j, j < i → rsearch pat (strLower (titles.getD j [])) = false) →
          resolveIndex q titles = .found i) ∧
        ((∀ t ∈ titles, rsearch pat (strLower t) = false) →
          resolveIndex q titles = .notFound)) ∧
    ((strLower q).all regexFragment = true →
      (∀ t ∈ titles, strLower t ≠ strLower q) → compilePat (strLower q) = none →
      resolveIndex q titles = .compileError) := by
  refine ⟨?_, ?_, ?_⟩
  · intro i hi heq hprev
    have hfi : firstIdx (fun t => strLower t == strLower q) titles = some i := by
      refine (firstIdx_some_iff _ _ _).mpr ⟨hi, beq_iff_eq.mpr heq, ?_⟩
      intro j hj
      exact beq_eq_false_iff_ne.mpr (hprev j hj)
    unfold resolveIndex
    rw [hfi]
  · intro _hfrag hnoexact pat hpat
    have hexact : firstIdx (fun t => strLower t == strLower q) titles = none :=
      (firstIdx_none_iff _ _).mpr (fun t ht => beq_eq_false_iff_ne.mpr (hnoexact t ht))
    constructor
    · intro i hi hsearch hprev
      have hfz : firstIdx (fun t => rsearch pat (strLower t)) titles = some i :=
        (firstIdx_some_iff _ _ _).mpr ⟨hi, hsearch, fun j hj => hprev j hj⟩
      unfold resolveIndex
      rw [hexact]
      dsimp only
      rw [hpat]
      dsimp only
      rw [hfz]
    · intro hall
      have hfz : firstIdx (fun t => rsearch pat (strLower t)) titles = none :=
        (firstIdx_none_iff _ _).mpr hall
      unfold resolveIndex
      rw [hexact]
      dsimp only
      rw [hpat]
      dsimp only
      rw [hfz]
  · intro _hfrag hnoexact hcomp
    have hexact : firstIdx (fun t => strLower t == strLower q) titles = none :=
      (firstIdx_none_iff _ _).mpr (fun t ht => beq_eq_false_iff_ne.mpr (hnoexact t ht))
    unfold resolveIndex
    rw [hexact]
    dsimp only
    rw [hcomp]

/-- Witness for C1 (amended), at the fuzzy stage: the query `"b"` has no
exact title match and resolves to the first title matched by the pattern. -/
theorem query_resolution_two_stage_witness :
    resolveIndex ['b'] [['x','a'], ['a','b'], ['c','b']] = .found 1 := by
  have h := (query_resolution_two_stage ['b'] [['x','a'], ['a','b'], ['c','b']]).2.1
    (by decide) (by decide) [⟨RTok.lit 'b', false⟩] (by decide)
  exact h.1 1 (by decide) (by decide) (by decide)

/-- Counterexample to C1 as stated.  With corpus `["xyz"]` and query
`"x.z"`, neither the exact stage nor a literal-substring stage matches
(`resolveSpecSubstring`, the claim's reading, says not-found), so the claim
requires `NotFound("x.z")` — but the code resolves the query (as the regex
`x.z`, which matches `"xyz"`) and finishes successfully. -/
theorem fuzzy_stage_not_literal_substring :
    resolveSpecSubstring ['x','.','z'] [['x','y','z']] = none ∧
    runWorker ['x','.','z'] [['x','y','z']] [[1]] = .finished [] ∧
    runWorker ['x','.','z'] [['x','y','z']] [[1]] ≠ .notFound ['x','.','z'] :=
  ⟨by decide, by decide, by decide⟩

/-- C8.  A failed `recommend` call (not-found or any per-call error) leaves
the engine state — the dataframe's titles, the vocabulary, the term-count
matrix and the similarity matrix — unchanged, and a subsequent call against
the resulting state behaves exactly as against the original state.  (The
worker body of lines 27-66 only reads `self.df` / `self.cosine_sim`; all
its assignments are thread-locals.) -/
theorem failed_query_preserves_state (q : PyStr) (st : EngineState)
    (_failed : (runWorkerSt q st).2 = .notFound q ∨ ∃ m, (runWorkerSt q st).2 = .failure m) :
    (runWorkerSt q st).1 = st ∧
    ∀ q2, runWorkerSt q2 (runWorkerSt q st).1 = runWorkerSt q2 st :=
  ⟨rfl, fun _ => rfl⟩

/-- Witness for C8: a concrete not-found query against a one-item engine. -/
theorem failed_query_preserves_state_witness :
    (runWorkerSt ['z'] ⟨[['a','b']], [], [], [[1]]⟩).1 = ⟨[['a','b']], [], [], [[1]]⟩ :=
  (failed_query_preserves_state ['z'] ⟨[['a','b']], [], [], [[1]]⟩ (Or.inl (by decide))).1

/-- Is this outcome the distinguished not-found emission
(`error.emit(f"Movie '{q}' not found in the database.")`)? -/
def isNotFound : RunResult → Bool
  | .notFound _ => true
  | _ => false

/-- C9.  The fuzzy stage interprets the query as a regular expression, not a
literal substring: the query `"st.r"` resolves to `"star wars"` although it
is not a literal substring of it; and the syntactically invalid pattern
`"*"` (`re.error: nothing to repeat`) makes the call fail with the generic
error of the blanket handler, an error other than the not-found one. -/
theorem fuzzy_stage_is_regex :
    resolveIndex ['s','t','.','r'] [['s','t','a','r',' ','w','a','r','s']] = .found 0 ∧
    containsSub (strLower ['s','t','.','r'])
      (strLower ['s','t','a','r',' ','w','a','r','s']) = false ∧
    runWorker ['*'] [['s','t','a','r',' ','w','a','r','s']] [[1]] =
      .failure "An error occurred: invalid fuzzy-match pattern" ∧
    isNotFound (runWorker ['*'] [['s','t','a','r',' ','w','a','r','s']] [[1]]) = false :=
  ⟨by decide, by decide, by decide, by decide⟩

/-- C10.  On a non-empty corpus with non-empty titles and a well-formed
square similarity matrix, the empty-string query never fails with the
not-found error: the exact stage misses, the empty pattern compiles and
matches every title, so the query resolves to the first item in corpus
order and the call returns that item's recommendations. -/
theorem empty_query_resolves_first (titles : List PyStr) (sim : List (List ℚ))
    (hne : titles ≠ [])
    (htne : ∀ t ∈ titles, t ≠ [])
    (hsq : sim.length = titles.length)
    (hrows : ∀ r ∈ sim, r.length = titles.length) :
    resolveIndex [] titles = .found 0 ∧
    ∃ recs, runWorker [] titles sim = .finished recs := by
  obtain ⟨t0, ts, rfl⟩ : ∃ t0 ts, titles = t0 :: ts := by
    cases titles with
    | nil => exact absurd rfl hne
    | cons a l => exact ⟨a, l, rfl⟩
  have hres : resolveIndex [] (t0 :: ts) = .found 0 := by
    have hexact : firstIdx (fun t => strLower t == strLower []) (t0 :: ts) = none := by
      refine (firstIdx_none_iff _ _).mpr ?_
      intro t ht
      refine beq_eq_false_iff_ne.mpr ?_
      intro hcon
      have hlen := congrArg List.length hcon
      simp only [strLower, List.length_map, List.map_nil, List.length_nil] at hlen
      exact htne t ht (List.length_eq_zero.mp hlen)
    have hcomp : compilePat (strLower ([] : PyStr)) = some [] := rfl
    have hfz : firstIdx (fun t => rsearch [] (strLower t)) (t0 :: ts) = some 0 := by
      unfold firstIdx
      rw [if_pos (rsearch_nil _)]
    unfold resolveIndex
    rw [hexact]
    dsimp only
    rw [hcomp]
    dsimp only
    rw [hfz]
  rcases result_length_min_k [] (t0 :: ts) sim 0 hres hsq hrows with ⟨recs, hrun, _⟩
  exact ⟨hres, recs, hrun⟩

/-- Witness for C10: a concrete one-item corpus; the empty query resolves
to item 0. -/
theorem empty_query_resolves_first_witness :
    resolveIndex [] [['a','b']] = .found 0 :=
  (empty_query_resolves_first [['a','b']] [[1]] (by decide) (by decide) (by decide)
    (by decide)).1

/-! ## Lemmas about the cosine computation -/

theorem dotList_cons (a b : ℕ) (u v : List ℕ) :
    dotList (a :: u) (b :: v) = a * b + dotList u v := by
  simp [dotList]

theorem dotList_nil_left (v : List ℕ) : dotList [] v = 0 := rfl

theorem dotList_nil_right (u : List ℕ) : dotList u [] = 0 := by
  cases u <;> rfl

theorem dotList_comm : ∀ u v : List ℕ, dotList u v = dotList v u
  | [], v => by rw [dotList_nil_left, dotList_nil_right]
  | a :: u, [] => by rw [dotList_nil_left, dotList_nil_right]
  | a :: u, b :: v => by
    rw [dotList_cons, dotList_cons, dotList_comm u v, Nat.mul_comm]

theorem dotList_self_zero : ∀ u v : List ℕ, dotList u u = 0 → dotList u v = 0
  | [], v => fun _ => rfl
  | a :: u, [] => fun _ => dotList_nil_right _
  | a :: u, b :: v => by
    intro h
    rw [dotList_cons] at h
    rcases Nat.add_eq_zero.mp h with ⟨ha, hu⟩
    have ha0 : a = 0 := by
      rcases Nat.mul_eq_zero.mp ha with h0 | h0 <;> exact h0
    rw [dotList_cons, ha0, Nat.zero_mul, Nat.zero_add]
    exact dotList_self_zero u v hu

theorem cauchy_schwarz_list : ∀ u v : List ℕ, dotList u v ^ 2 ≤ dotList u u * dotList v v
  | [], v => by simp [dotList_nil_left]
  | a :: u, [] => by simp [dotList_nil_right]
  | a :: u, b :: v => by
    have ih := cauchy_schwarz_list u v
    rw [dotList_cons, dotList_cons, dotList_cons]
    have ihz : ((dotList u v : ℤ)) ^ 2 ≤ (dotList u u : ℤ) * (dotList v v : ℤ) := by
      exact_mod_cast ih
    have h4 : (0 : ℤ) ≤ ((a : ℤ) ^ 2 * (b : ℤ) ^ 2) *
        ((dotList u u : ℤ) * (dotList v v : ℤ) - (dotList u v : ℤ) ^ 2) :=
      mul_nonneg (mul_nonneg (sq_nonneg _) (sq_nonneg _)) (sub_nonneg.mpr ihz)
    have h1 : ((2 : ℤ) * a * b * (dotList u v : ℤ)) ^ 2 ≤
        ((a : ℤ) ^ 2 * (dotList v v : ℤ) + (dotList u u : ℤ) * (b : ℤ) ^ 2) ^ 2 := by
      nlinarith [sq_nonneg ((a : ℤ) ^ 2 * (dotList v v : ℤ) -
        (dotList u u : ℤ) * (b : ℤ) ^ 2), h4]
    have key : (2 : ℤ) * a * b * (dotList u v : ℤ) ≤
        (a : ℤ) ^ 2 * (dotList v v : ℤ) + (dotList u u : ℤ) * (b : ℤ) ^ 2 := by
      have h2 : (0 : ℤ) ≤ 2 * a * b * (dotList u v : ℤ) := by positivity
      have h3 : (0 : ℤ) ≤ (a : ℤ) ^ 2 * (dotList v v : ℤ) +
          (dotList u u : ℤ) * (b : ℤ) ^ 2 := by positivity
      exact (pow_le_pow_iff_left₀ h2 h3 (by norm_num)).mp h1
    zify
    nlinarith [key, ihz]

theorem rowNorm_pos (u : List ℕ) : 0 < rowNorm u := by
  unfold rowNorm
  by_cases h : dotList u u = 0
  · rw [if_pos h]
    norm_num
  · rw [if_neg h]
    exact Real.sqrt_pos.mpr (by exact_mod_cast Nat.pos_of_ne_zero h)

/-- C5.  The cosine computation is total and bounded: every score lies in
`[0, 1]`, and when either row's norm is zero (zero self-dot-product) the
score is `0` — the division never faults, since sklearn replaces zero norms
by 1 before dividing. -/
theorem cosine_total_bounded (u v : List ℕ) :
    0 ≤ cosineSim u v ∧ cosineSim u v ≤ 1 ∧
      ((dotList u u = 0 ∨ dotList v v = 0) → cosineSim u v = 0) := by
  have hzero : (dotList u u = 0 ∨ dotList v v = 0) → cosineSim u v = 0 := by
    intro h
    have hd : dotList u v = 0 := by
      rcases h with h | h
      · exact dotList_self_zero u v h
      · rw [dotList_comm]
        exact dotList_self_zero v u h
    unfold cosineSim
    rw [hd]
    norm_num
  refine ⟨?_, ?_, hzero⟩
  · unfold cosineSim
    exact div_nonneg (by positivity)
      (mul_nonneg (le_of_lt (rowNorm_pos u)) (le_of_lt (rowNorm_pos v)))
  · by_cases hu : dotList u u = 0
    · rw [hzero (Or.inl hu)]
      norm_num
    · by_cases hv : dotList v v = 0
      · rw [hzero (Or.inr hv)]
        norm_num
      · unfold cosineSim rowNorm
        rw [if_neg hu, if_neg hv]
        have hA : (0 : ℝ) < (dotList u u : ℝ) := by exact_mod_cast Nat.pos_of_ne_zero hu
        have hB : (0 : ℝ) < (dotList v v : ℝ) := by exact_mod_cast Nat.pos_of_ne_zero hv
        rw [div_le_one (mul_pos (Real.sqrt_pos.mpr hA) (Real.sqrt_pos.mpr hB)),
          ← Real.sqrt_mul (le_of_lt hA)]
        refine (Real.le_sqrt (by positivity) (by positivity)).mpr ?_
        exact_mod_cast cauchy_schwarz_list u v

/-- Witness for C5: a pair with a zero row; the score is 0. -/
theorem cosine_total_bounded_witness : cosineSim [1, 0] [0, 0] = 0 :=
  (cosine_total_bounded [1, 0] [0, 0]).2.2 (Or.inr rfl)

/-- C6.  The similarity score is symmetric: over exact arithmetic,
`score(a, b) = score(b, a)` for every pair of count rows. -/
theorem cosine_symmetric (u v : List ℕ) : cosineSim u v = cosineSim v u := by
  unfold cosineSim
  rw [dotList_comm u v, mul_comm]

/-- Counterexample to C7 as stated.  The empty item sequence does not fail
with a distinct `EmptyCorpus` error: it produces exactly the same
unclassified generic load failure (the vectorizer's empty-vocabulary
`ValueError` caught by the blanket `except` of lines 129-132) as a
*non-empty* corpus whose single item has no tokens — the two failure causes
are indistinguishable to the caller. -/
theorem empty_corpus_error_not_distinct :
    load_and_process_data (some []) =
      .exitLoadError
        "Error loading data: empty vocabulary; perhaps the documents only contain stop words" ∧
    load_and_process_data (some [⟨['x'], none, none, none, none⟩]) =
      .exitLoadError
        "Error loading data: empty vocabulary; perhaps the documents only contain stop words" :=
  ⟨by decide, by decide⟩

/-- C7 (amended).  On an empty item sequence the load step does fail and
startup aborts (`sys.exit(1)`), but with the generic unclassified
`"Error loading data: ..."` failure produced by the blanket handler — the
code has no distinct `EmptyCorpus` error kind. -/
theorem empty_corpus_generic_error :
    load_and_process_data (some []) =
      .exitLoadError
        "Error loading data: empty vocabulary; perhaps the documents only contain stop words" :=
  by decide

end MovieRec
